import Mathlib

/-!
Verification development for the `fixed-merkle-tree` repository: a fixed-depth,
incrementally maintained binary hash tree with a full variant (`MerkleTree`) and
a partial variant (`PartialMerkleTree`) that retains only a suffix of leaves
plus one frontier digest per level, yet computes the same root.

The repository ships its test suite and the default digest helper
(`src/src/sha256.js`); the tree implementation itself is not among the given
source files, so the tree operations below are modelled from the specification
(spec.md) -- each such definition carries a doc comment starting with
`Modelled from the spec:`.  Where the test suite pins concrete behaviour
(error-message strings, validation order), the model follows the tests, since
they are source code of the repository.

Elements and digests are modelled as `Nat` (the code treats them as opaque
hashable values); the pluggable hash function is a parameter `Nat → Nat → Nat`
stored in each tree, mirroring the injected `hashFunction` option.  Fallible
operations return `Except String` carrying the thrown error message.
-/

namespace FixedMerkleTree

/-- Modelled from the spec: an `update`/`path` index as received from
JavaScript callers -- either a numeric value (possibly negative) or a
non-numeric value (`isNaN(Number(index))`), carried as the text used when the
error message names the offending value. -/
inductive Idx where
  | int (i : Int)
  | nan (s : String)

/-- Modelled from the spec: the per-level zero cache.
`Zero(0) = zeroElement`, `Zero(l) = hash(Zero(l-1), Zero(l-1))`. -/
def zerosOf (hashFn : Nat → Nat → Nat) (zeroElement : Nat) : Nat → Nat
  | 0 => zeroElement
  | l + 1 => hashFn (zerosOf hashFn zeroElement l) (zerosOf hashFn zeroElement l)

/-- Modelled from the spec: the digest of `Node(level, index)` of a full tree
with leaf list `leaves`.  Layer 0 holds the leaves, conceptually padded on the
right with the zero element; every higher node is `hash(left-child,
right-child)`, so a fully absent subtree evaluates to `Zero(level)`. -/
def nodeOf (hashFn : Nat → Nat → Nat) (z : Nat) (leaves : List Nat) :
    Nat → Nat → Nat
  | 0, i => leaves.getD i z
  | l + 1, i =>
      hashFn (nodeOf hashFn z leaves l (2 * i)) (nodeOf hashFn z leaves l (2 * i + 1))

/-- Modelled from the spec: writing a leaf at `i`.  For `i` equal to the
current length the tree is extended by one leaf (JavaScript
`layers[0][i] = el`), otherwise the leaf is replaced in place. -/
def setLeaf (xs : List Nat) (i : Nat) (el : Nat) : List Nat :=
  if i = xs.length then xs ++ [el] else xs.set i el

/-- Modelled from the spec: the sibling index at a level (`i ^ 1`). -/
def sibIdx (i : Nat) : Nat := if i % 2 = 0 then i + 1 else i - 1

/-- Modelled from the spec: the full tree.  The layer store is determined by
the leaf list (every higher layer is rebuilt from it by pairwise hashing), so
the state is the depth, the injected hash function, the configured zero
element, and the leaves. -/
structure MerkleTree where
  levels : Nat
  hashFn : Nat → Nat → Nat
  zeroElement : Nat
  leaves : List Nat

/-- Modelled from the spec: `capacity = 2^levels` (spec §3, §9; the test
fixture computing `levels ** 2` is treated as non-authoritative, as spec §9
directs). -/
def MerkleTree.capacity (t : MerkleTree) : Nat := 2 ^ t.levels

/-- The node digest at `(level, index)` of a full tree. -/
def MerkleTree.node (t : MerkleTree) (level index : Nat) : Nat :=
  nodeOf t.hashFn t.zeroElement t.leaves level index

/-- Modelled from the spec: the root is the single node at `level = levels`. -/
def MerkleTree.root (t : MerkleTree) : Nat := t.node t.levels 0

/-- Modelled from the spec: the constructor validates
`elements.length <= 2^levels`, else fails with the capacity error. -/
def MerkleTree.make (levels : Nat) (hashFn : Nat → Nat → Nat) (zeroElement : Nat)
    (elements : List Nat) : Except String MerkleTree :=
  if elements.length > 2 ^ levels then .error "Tree is full"
  else .ok ⟨levels, hashFn, zeroElement, elements⟩

/-- Modelled from the spec: `insert` appends at the next free index and fails
with the capacity error when the tree is already at capacity. -/
def MerkleTree.insert (t : MerkleTree) (el : Nat) : Except String MerkleTree :=
  if t.capacity ≤ t.leaves.length then .error "Tree is full"
  else .ok { t with leaves := t.leaves ++ [el] }

/-- Modelled from the spec: `bulkInsert` appends a batch.  An empty input is a
no-op; a batch that would exceed capacity fails with the capacity error. -/
def MerkleTree.bulkInsert (t : MerkleTree) (els : List Nat) :
    Except String MerkleTree :=
  if els.isEmpty then .ok t
  else if t.capacity < t.leaves.length + els.length then .error "Tree is full"
  else .ok { t with leaves := t.leaves ++ els }

/-- Modelled from the spec and the test suite: `update` accepts indices in
`[0, elements.length]` that are below capacity (an index equal to the current
count extends the tree by one); every other index -- negative, non-numeric,
above the count, or at/beyond capacity -- fails with the message
`Insert index out of bounds: <value>` pinned by the tests. -/
def MerkleTree.update (t : MerkleTree) (index : Idx) (el : Nat) :
    Except String MerkleTree :=
  match index with
  | .nan s => .error ("Insert index out of bounds: " ++ s)
  | .int i =>
      if i < 0 ∨ (t.leaves.length : Int) < i ∨ (t.capacity : Int) ≤ i then
        .error ("Insert index out of bounds: " ++ toString i)
      else .ok { t with leaves := setLeaf t.leaves i.toNat el }

/-- Modelled from the spec: the ordered sibling digests with their left/right
indicators, from `level` for `k` more levels, for the leaf-walk position `i`.
The indicator is `i % 2` (0 when the current node is a left child). -/
def MerkleTree.pathFrom (t : MerkleTree) (level k i : Nat) : List (Nat × Nat) :=
  match k with
  | 0 => []
  | k + 1 => (t.node level (sibIdx i), i % 2) :: t.pathFrom (level + 1) k (i / 2)

/-- Modelled from the spec and the test suite: `path(index)` validates
`index ∈ [0, elements.length)` and otherwise fails with the message
`Index out of bounds: <value>` pinned by the tests. -/
def MerkleTree.path (t : MerkleTree) (index : Idx) :
    Except String (List (Nat × Nat)) :=
  match index with
  | .nan s => .error ("Index out of bounds: " ++ s)
  | .int i =>
      if i < 0 ∨ (t.leaves.length : Int) ≤ i then
        .error ("Index out of bounds: " ++ toString i)
      else .ok (t.pathFrom 0 t.levels i.toNat)

/-- Modelled from the spec: folding the configured hash over a proof path,
starting from a leaf digest: at each step the current digest is combined with
the sibling, on the side given by the left/right indicator. -/
def recomputeRoot (hashFn : Nat → Nat → Nat) : Nat → List (Nat × Nat) → Nat
  | cur, [] => cur
  | cur, (sib, ind) :: rest =>
      recomputeRoot hashFn (if ind = 0 then hashFn cur sib else hashFn sib cur) rest

/-- Modelled from the spec: `getTreeEdge` at a located edge index records, for
every level below the root, the digest of the sibling of the edge index's
ancestor at that level -- for an odd ancestor index this is the aggregate of
everything to its left, the frontier digest the partial tree substitutes for
pruned data.  (`getTreeEdge(element)` first locates the element with the
default-comparator `indexOf`; the edge index resulting from that lookup is
taken as given here.) -/
def MerkleTree.getTreeEdgeAt (t : MerkleTree) (e : Nat) : List Nat :=
  (List.range t.levels).map fun l => t.node l (sibIdx (e / 2 ^ l))

/-- Modelled from the spec: the partial tree.  It stores the boundary
`edgeIndex`, one substitute digest per level (`edgePath`), and only the local
leaves at logical indices `edgeIndex, edgeIndex+1, ...`. -/
structure PartialMerkleTree where
  levels : Nat
  hashFn : Nat → Nat → Nat
  zeroElement : Nat
  edgeIndex : Nat
  edgePath : List Nat
  leaves : List Nat

/-- Modelled from the spec: `capacity = 2^levels`, identical to the full
tree. -/
def PartialMerkleTree.capacity (t : PartialMerkleTree) : Nat := 2 ^ t.levels

/-- Modelled from the spec: the global leaf count of a partial tree is
`edgeIndex + local count`; this is the length reported by its `elements`
getter and the count `insert`/`bulkInsert` charge against capacity. -/
def PartialMerkleTree.elementCount (t : PartialMerkleTree) : Nat :=
  t.edgeIndex + t.leaves.length

/-- Modelled from the spec: the node digest at `(level, index)` of a partial
tree.  At each level, a child that lies strictly left of the boundary
`edgeIndex / 2^level` is never resolved from stored data; the per-level
`edgePath` digest is substituted for it (spec §4.3, recomputation policy).
Children at or beyond the boundary are resolved recursively, with local leaves
(padded on the right by the zero element) at level 0. -/
def pnodeOf (hashFn : Nat → Nat → Nat) (z e : Nat) (ep leaves : List Nat) :
    Nat → Nat → Nat
  | 0, i => if i < e then ep.getD 0 z else leaves.getD (i - e) z
  | l + 1, i =>
      hashFn
        (if 2 * i < e / 2 ^ l then ep.getD l z
         else pnodeOf hashFn z e ep leaves l (2 * i))
        (if 2 * i + 1 < e / 2 ^ l then ep.getD l z
         else pnodeOf hashFn z e ep leaves l (2 * i + 1))

/-- The node digest at `(level, index)` of a partial tree. -/
def PartialMerkleTree.node (t : PartialMerkleTree) (level index : Nat) : Nat :=
  pnodeOf t.hashFn t.zeroElement t.edgeIndex t.edgePath t.leaves level index

/-- Modelled from the spec: the partial tree's root, recomputed from its local
layers with the per-level `edgePath` substitution. -/
def PartialMerkleTree.root (t : PartialMerkleTree) : Nat := t.node t.levels 0

/-- Modelled from the spec: the partial-tree constructor consumes the edge
record and the suffix of leaves (the known root is also passed in the code but
does not enter the rebuilt state); the initial global count is validated
against capacity. -/
def PartialMerkleTree.make (levels : Nat) (hashFn : Nat → Nat → Nat)
    (zeroElement edgeIndex : Nat) (edgePath leavesAfterEdge : List Nat) :
    Except String PartialMerkleTree :=
  if edgeIndex + leavesAfterEdge.length > 2 ^ levels then .error "Tree is full"
  else .ok ⟨levels, hashFn, zeroElement, edgeIndex, edgePath, leavesAfterEdge⟩

/-- Modelled from the spec: `insert` on a partial tree charges the global
count against capacity. -/
def PartialMerkleTree.insert (t : PartialMerkleTree) (el : Nat) :
    Except String PartialMerkleTree :=
  if t.capacity ≤ t.elementCount then .error "Tree is full"
  else .ok { t with leaves := t.leaves ++ [el] }

/-- Modelled from the spec: `bulkInsert` on a partial tree; the batch is
charged against the global count. -/
def PartialMerkleTree.bulkInsert (t : PartialMerkleTree) (els : List Nat) :
    Except String PartialMerkleTree :=
  if els.isEmpty then .ok t
  else if t.capacity < t.elementCount + els.length then .error "Tree is full"
  else .ok { t with leaves := t.leaves ++ els }

/-- Modelled from the spec and the test suite: `update` on a partial tree.
Bounds are validated first, against the global count and capacity, with the
message `Insert index out of bounds: <value>`; an in-bounds index below the
edge then fails with `Index <i> is below the edge: <edgeIndex>` (both message
shapes and this validation order are pinned by the tests). -/
def PartialMerkleTree.update (t : PartialMerkleTree) (index : Idx) (el : Nat) :
    Except String PartialMerkleTree :=
  match index with
  | .nan s => .error ("Insert index out of bounds: " ++ s)
  | .int i =>
      if i < 0 ∨ (t.elementCount : Int) < i ∨ (t.capacity : Int) ≤ i then
        .error ("Insert index out of bounds: " ++ toString i)
      else if i < (t.edgeIndex : Int) then
        .error ("Index " ++ toString i ++ " is below the edge: " ++
          toString t.edgeIndex)
      else .ok { t with leaves := setLeaf t.leaves (i.toNat - t.edgeIndex) el }

/-- Modelled from the spec: the partial tree's proof path; a sibling lying
left of the boundary at its level is replaced by that level's `edgePath`
digest. -/
def PartialMerkleTree.pathFrom (t : PartialMerkleTree) (level k i : Nat) :
    List (Nat × Nat) :=
  match k with
  | 0 => []
  | k + 1 =>
      (if sibIdx i < t.edgeIndex / 2 ^ level then t.edgePath.getD level t.zeroElement
       else t.node level (sibIdx i), i % 2) :: t.pathFrom (level + 1) k (i / 2)

/-- Modelled from the spec and the test suite: `path(index)` on a partial
tree validates the range against the global count (message
`Index out of bounds: <value>`), then the edge boundary (message
`Index <i> is below the edge: <edgeIndex>`). -/
def PartialMerkleTree.path (t : PartialMerkleTree) (index : Idx) :
    Except String (List (Nat × Nat)) :=
  match index with
  | .nan s => .error ("Index out of bounds: " ++ s)
  | .int i =>
      if i < 0 ∨ (t.elementCount : Int) ≤ i then
        .error ("Index out of bounds: " ++ toString i)
      else if i < (t.edgeIndex : Int) then
        .error ("Index " ++ toString i ++ " is below the edge: " ++
          toString t.edgeIndex)
      else .ok (t.pathFrom 0 t.levels i.toNat)

/-- Modelled from the spec: the partial tree bootstrapped from a full tree's
edge at leaf index `e`: the edge record from `getTreeEdge`, the leaf suffix
`elements.slice(edgeIndex)`, and the tree configuration.  (The known root is
also handed to the constructor; it does not enter the rebuilt state.) -/
def partialFromEdge (t : MerkleTree) (e : Nat) : PartialMerkleTree :=
  ⟨t.levels, t.hashFn, t.zeroElement, e, t.getTreeEdgeAt e, t.leaves.drop e⟩

/-- A mutation of the shared full/partial operation set, used to state the
equivalence claims over arbitrary operation sequences. -/
inductive Op where
  | ins (el : Nat)
  | bulk (els : List Nat)
  | upd (i : Nat) (el : Nat)

/-- `Op.aboveEdge e op` holds when the operation is confined to indices
`≥ e` (inserts never reference an index). -/
def Op.aboveEdge (e : Nat) : Op → Bool
  | .ins _ => true
  | .bulk _ => true
  | .upd i _ => decide (e ≤ i)

/-- Apply one operation to a full tree. -/
def applyOpF (t : MerkleTree) : Op → Except String MerkleTree
  | .ins el => t.insert el
  | .bulk els => t.bulkInsert els
  | .upd i el => t.update (.int i) el

/-- Apply one operation to a partial tree. -/
def applyOpP (t : PartialMerkleTree) : Op → Except String PartialMerkleTree
  | .ins el => t.insert el
  | .bulk els => t.bulkInsert els
  | .upd i el => t.update (.int i) el

/-- Apply a sequence of operations to a full tree, stopping at the first
error. -/
def applySeqF : List Op → MerkleTree → Except String MerkleTree
  | [], t => .ok t
  | op :: rest, t =>
      match applyOpF t op with
      | .ok t' => applySeqF rest t'
      | .error s => .error s

/-- Apply a sequence of operations to a partial tree, stopping at the first
error. -/
def applySeqP : List Op → PartialMerkleTree → Except String PartialMerkleTree
  | [], t => .ok t
  | op :: rest, t =>
      match applyOpP t op with
      | .ok t' => applySeqP rest t'
      | .error s => .error s

/-- Two fallible results agree when they are both errors with the same message
or both successes whose values are related by `R`. -/
def ExceptAgree {α β : Type} (R : α → β → Prop) :
    Except String α → Except String β → Prop
  | .ok a, .ok b => R a b
  | .error s, .error s' => s = s'
  | _, _ => False

/-- Sequential insertion on a full tree: one `insert` per element, in order. -/
def seqInsertF (t : MerkleTree) : List Nat → Except String MerkleTree
  | [] => .ok t
  | el :: rest =>
      match t.insert el with
      | .ok t' => seqInsertF t' rest
      | .error s => .error s

/-- Sequential insertion on a partial tree: one `insert` per element, in
order. -/
def seqInsertP (t : PartialMerkleTree) : List Nat → Except String PartialMerkleTree
  | [] => .ok t
  | el :: rest =>
      match t.insert el with
      | .ok t' => seqInsertP t' rest
      | .error s => .error s

/-! ### Helper lemmas about leaf lists -/

theorem getD_drop (xs : List Nat) (z e i : Nat) (h : e ≤ i) :
    (xs.drop e).getD (i - e) z = xs.getD i z := by
  simp [List.getD_eq_getElem?_getD, List.getElem?_drop, Nat.add_sub_cancel' h]

/-- A node digest depends only on the leaves in its index range: two leaf
lists whose zero-padded views agree on `[j * 2^l, (j+1) * 2^l)` give the same
`Node(l, j)`. -/
theorem nodeOf_congr (hashFn : Nat → Nat → Nat) (z : Nat) (xs ys : List Nat) :
    ∀ (l j : Nat),
      (∀ k, j * 2 ^ l ≤ k → k < (j + 1) * 2 ^ l → xs.getD k z = ys.getD k z) →
      nodeOf hashFn z xs l j = nodeOf hashFn z ys l j := by
  intro l
  induction l with
  | zero =>
      intro j hag
      have h := hag j (by simp) (by simp)
      simpa [nodeOf] using h
  | succ l ih =>
      intro j hag
      have hL : nodeOf hashFn z xs l (2 * j) = nodeOf hashFn z ys l (2 * j) := by
        refine ih (2 * j) fun k hk1 hk2 => hag k ?_ ?_
        · calc j * 2 ^ (l + 1) = 2 * j * 2 ^ l := by ring
            _ ≤ k := hk1
        · calc k < (2 * j + 1) * 2 ^ l := hk2
            _ ≤ (2 * j + 2) * 2 ^ l := Nat.mul_le_mul_right _ (by omega)
            _ = (j + 1) * 2 ^ (l + 1) := by ring
      have hR : nodeOf hashFn z xs l (2 * j + 1) = nodeOf hashFn z ys l (2 * j + 1) := by
        refine ih (2 * j + 1) fun k hk1 hk2 => hag k ?_ ?_
        · calc j * 2 ^ (l + 1) = 2 * j * 2 ^ l := by ring
            _ ≤ (2 * j + 1) * 2 ^ l := Nat.mul_le_mul_right _ (by omega)
            _ ≤ k := hk1
        · calc k < (2 * j + 1 + 1) * 2 ^ l := hk2
            _ = (j + 1) * 2 ^ (l + 1) := by ring
      simp [nodeOf, hL, hR]

/-! ### The simulation invariant between a full tree and a partial tree -/

/-- The invariant tying a partial tree to a full tree: same configuration, the
local leaves are exactly the full tree's suffix from `edgeIndex`, and every
`edgePath` entry that the partial tree can ever substitute (the levels where
the boundary index is odd) holds the digest of the full tree's aggregate node
left of the boundary at that level. -/
structure Tracks (ft : MerkleTree) (pt : PartialMerkleTree) : Prop where
  levels_eq : pt.levels = ft.levels
  hash_eq : pt.hashFn = ft.hashFn
  zero_eq : pt.zeroElement = ft.zeroElement
  edge_le : pt.edgeIndex ≤ ft.leaves.length
  edge_lt : pt.edgeIndex < 2 ^ ft.levels
  leaves_eq : pt.leaves = ft.leaves.drop pt.edgeIndex
  edgePath_valid : ∀ l < ft.levels, (pt.edgeIndex / 2 ^ l) % 2 = 1 →
      pt.edgePath.getD l pt.zeroElement =
        nodeOf ft.hashFn ft.zeroElement ft.leaves l (pt.edgeIndex / 2 ^ l - 1)

/-- Under the invariant, every node of the partial tree at or beyond the
boundary of its level equals the corresponding node of the full tree. -/
theorem pnode_eq_node_of_tracks {ft : MerkleTree} {pt : PartialMerkleTree}
    (tr : Tracks ft pt) :
    ∀ l, l ≤ ft.levels → ∀ i, pt.edgeIndex / 2 ^ l ≤ i →
      pt.node l i = ft.node l i := by
  intro l
  induction l with
  | zero =>
      intro _ i hi
      rw [Nat.pow_zero, Nat.div_one] at hi
      simp only [PartialMerkleTree.node, MerkleTree.node, pnodeOf, nodeOf]
      rw [if_neg (by omega), tr.leaves_eq, tr.zero_eq]
      exact getD_drop _ _ _ _ hi
  | succ l ih =>
      intro hls i hi
      have hlle : l ≤ ft.levels := Nat.le_of_succ_le hls
      rw [show (2 : Nat) ^ (l + 1) = 2 ^ l * 2 from pow_succ 2 l,
        ← Nat.div_div_eq_div_mul] at hi
      have hR : ¬ (2 * i + 1 < pt.edgeIndex / 2 ^ l) := by omega
      simp only [PartialMerkleTree.node, MerkleTree.node] at ih ⊢
      simp only [pnodeOf, nodeOf]
      rw [if_neg hR, ih hlle (2 * i + 1) (by omega)]
      by_cases hL : 2 * i < pt.edgeIndex / 2 ^ l
      · have hodd : pt.edgeIndex / 2 ^ l % 2 = 1 := by omega
        have h2i : 2 * i = pt.edgeIndex / 2 ^ l - 1 := by omega
        rw [if_pos hL, tr.edgePath_valid l (Nat.lt_of_succ_le hls) hodd, ← h2i,
          tr.hash_eq]
      · rw [if_neg hL, ih hlle (2 * i) (by omega), tr.hash_eq]

theorem tracks_count {ft : MerkleTree} {pt : PartialMerkleTree}
    (tr : Tracks ft pt) : pt.elementCount = ft.leaves.length := by
  have h := tr.edge_le
  rw [PartialMerkleTree.elementCount, tr.leaves_eq, List.length_drop]
  omega

theorem tracks_cap {ft : MerkleTree} {pt : PartialMerkleTree}
    (tr : Tracks ft pt) : pt.capacity = ft.capacity := by
  rw [PartialMerkleTree.capacity, MerkleTree.capacity, tr.levels_eq]

theorem tracks_root {ft : MerkleTree} {pt : PartialMerkleTree}
    (tr : Tracks ft pt) : pt.root = ft.root := by
  rw [PartialMerkleTree.root, MerkleTree.root, tr.levels_eq]
  exact pnode_eq_node_of_tracks tr ft.levels le_rfl 0
    (Nat.le_of_eq (Nat.div_eq_of_lt tr.edge_lt))

/-- Replacing the full tree's leaves with a list that agrees below the edge
(and is still at least `edgeIndex` long) preserves the invariant, the partial
side holding the drop of the new list. -/
theorem tracks_replace {ft : MerkleTree} {pt : PartialMerkleTree}
    (tr : Tracks ft pt) (newF : List Nat) (hlen : pt.edgeIndex ≤ newF.length)
    (hagree : ∀ k, k < pt.edgeIndex →
      newF.getD k ft.zeroElement = ft.leaves.getD k ft.zeroElement) :
    Tracks { ft with leaves := newF }
      { pt with leaves := newF.drop pt.edgeIndex } where
  levels_eq := tr.levels_eq
  hash_eq := tr.hash_eq
  zero_eq := tr.zero_eq
  edge_le := hlen
  edge_lt := tr.edge_lt
  leaves_eq := rfl
  edgePath_valid := by
    intro l hl hodd
    dsimp only at hodd ⊢
    refine (tr.edgePath_valid l hl hodd).trans
      (nodeOf_congr _ _ _ _ l _ fun k hk1 hk2 => (hagree k ?_).symm)
    have hb : 1 ≤ pt.edgeIndex / 2 ^ l :=
      Nat.one_le_iff_ne_zero.mpr fun h0 => by simp [h0] at hodd
    rw [Nat.sub_add_cancel hb] at hk2
    calc k < pt.edgeIndex / 2 ^ l * 2 ^ l := hk2
      _ ≤ pt.edgeIndex := Nat.div_mul_le_self _ _

theorem drop_setLeaf (xs : List Nat) (e i el : Nat) (he : e ≤ i)
    (hi : i ≤ xs.length) :
    (setLeaf xs i el).drop e = setLeaf (xs.drop e) (i - e) el := by
  rcases eq_or_lt_of_le hi with heq | hlt
  · rw [setLeaf, if_pos heq, setLeaf, if_pos (by rw [List.length_drop]; omega)]
    exact List.drop_append_of_le_length (by omega)
  · rw [setLeaf, if_neg (by omega), setLeaf,
      if_neg (by rw [List.length_drop]; omega)]
    refine List.ext_getElem? fun n => ?_
    rw [List.getElem?_drop, List.getElem?_set, List.getElem?_set,
      List.getElem?_drop, List.length_drop]
    by_cases h : i = e + n
    · rw [if_pos h, if_pos (by omega), if_pos (by omega), if_pos (by omega)]
    · rw [if_neg h, if_neg (by omega)]

theorem getD_setLeaf_lt (xs : List Nat) (i k el z : Nat) (hk : k < i)
    (_hi : i ≤ xs.length) : (setLeaf xs i el).getD k z = xs.getD k z := by
  rw [setLeaf]
  by_cases h : i = xs.length
  · rw [if_pos h]
    exact List.getD_append _ _ _ k (by omega)
  · rw [if_neg h, List.getD_eq_getElem?_getD, List.getD_eq_getElem?_getD,
      List.getElem?_set, if_neg (by omega)]

/-! ### Per-operation preservation of the invariant -/

theorem tracks_insert {ft : MerkleTree} {pt : PartialMerkleTree}
    (tr : Tracks ft pt) (el : Nat) :
    ExceptAgree (fun ft' pt' => Tracks ft' pt' ∧ pt'.edgeIndex = pt.edgeIndex)
      (ft.insert el) (pt.insert el) := by
  rw [MerkleTree.insert, PartialMerkleTree.insert, tracks_count tr, tracks_cap tr]
  by_cases h : ft.capacity ≤ ft.leaves.length
  · rw [if_pos h, if_pos h]; exact rfl
  · rw [if_neg h, if_neg h]
    have hdrop : (ft.leaves ++ [el]).drop pt.edgeIndex = pt.leaves ++ [el] := by
      rw [List.drop_append_of_le_length tr.edge_le, ← tr.leaves_eq]
    have h2 := tracks_replace tr (ft.leaves ++ [el])
      (by have h3 := tr.edge_le; rw [List.length_append]; omega)
      (fun k hk => List.getD_append _ _ _ k (lt_of_lt_of_le hk tr.edge_le))
    rw [hdrop] at h2
    exact ⟨h2, rfl⟩

theorem tracks_bulk {ft : MerkleTree} {pt : PartialMerkleTree}
    (tr : Tracks ft pt) (els : List Nat) :
    ExceptAgree (fun ft' pt' => Tracks ft' pt' ∧ pt'.edgeIndex = pt.edgeIndex)
      (ft.bulkInsert els) (pt.bulkInsert els) := by
  rw [MerkleTree.bulkInsert, PartialMerkleTree.bulkInsert, tracks_count tr,
    tracks_cap tr]
  by_cases he : els.isEmpty
  · rw [if_pos he, if_pos he]; exact ⟨tr, rfl⟩
  · rw [if_neg he, if_neg he]
    by_cases h : ft.capacity < ft.leaves.length + els.length
    · rw [if_pos h, if_pos h]; exact rfl
    · rw [if_neg h, if_neg h]
      have hdrop : (ft.leaves ++ els).drop pt.edgeIndex = pt.leaves ++ els := by
        rw [List.drop_append_of_le_length tr.edge_le, ← tr.leaves_eq]
      have h2 := tracks_replace tr (ft.leaves ++ els)
        (by have h3 := tr.edge_le; rw [List.length_append]; omega)
        (fun k hk => List.getD_append _ _ _ k (lt_of_lt_of_le hk tr.edge_le))
      rw [hdrop] at h2
      exact ⟨h2, rfl⟩

theorem tracks_update {ft : MerkleTree} {pt : PartialMerkleTree}
    (tr : Tracks ft pt) (i el : Nat) (hei : pt.edgeIndex ≤ i) :
    ExceptAgree (fun ft' pt' => Tracks ft' pt' ∧ pt'.edgeIndex = pt.edgeIndex)
      (ft.update (.int i) el) (pt.update (.int i) el) := by
  simp only [MerkleTree.update, PartialMerkleTree.update, tracks_count tr,
    tracks_cap tr]
  by_cases hcond : (i : Int) < 0 ∨ (ft.leaves.length : Int) < (i : Int) ∨
      (ft.capacity : Int) ≤ (i : Int)
  · rw [if_pos hcond, if_pos hcond]; exact rfl
  · rw [if_neg hcond, if_neg hcond, if_neg (by omega)]
    push_cast at hcond
    have hin : i ≤ ft.leaves.length := by omega
    have hdrop : (setLeaf ft.leaves i el).drop pt.edgeIndex =
        setLeaf pt.leaves ((i : Int).toNat - pt.edgeIndex) el := by
      rw [Int.toNat_natCast, drop_setLeaf ft.leaves pt.edgeIndex i el hei hin,
        ← tr.leaves_eq]
    have h2 := tracks_replace tr (setLeaf ft.leaves i el)
      (by rw [setLeaf]; split
          · rw [List.length_append, List.length_singleton]; omega
          · rw [List.length_set]; omega)
      (fun k hk => getD_setLeaf_lt _ _ _ _ _ (lt_of_lt_of_le hk hei) hin)
    rw [hdrop] at h2
    rw [Int.toNat_natCast]
    exact ⟨h2, rfl⟩

theorem tracks_applyOp {ft : MerkleTree} {pt : PartialMerkleTree}
    (tr : Tracks ft pt) (op : Op)
    (hop : Op.aboveEdge pt.edgeIndex op = true) :
    ExceptAgree (fun ft' pt' => Tracks ft' pt' ∧ pt'.edgeIndex = pt.edgeIndex)
      (applyOpF ft op) (applyOpP pt op) := by
  cases op with
  | ins el => exact tracks_insert tr el
  | bulk els => exact tracks_bulk tr els
  | upd i el =>
      exact tracks_update tr i el (by simpa [Op.aboveEdge] using hop)

theorem exceptAgree_mono {α β : Type} {R S : α → β → Prop}
    (h : ∀ a b, R a b → S a b) {x : Except String α} {y : Except String β}
    (hr : ExceptAgree R x y) : ExceptAgree S x y := by
  cases x with
  | ok a =>
      cases y with
      | ok b => exact h a b hr
      | error s => exact False.elim hr
  | error s =>
      cases y with
      | ok b => exact False.elim hr
      | error s' => exact hr

theorem tracks_applySeq (e : Nat) :
    ∀ (ops : List Op) (ft : MerkleTree) (pt : PartialMerkleTree),
      Tracks ft pt → pt.edgeIndex = e →
      (∀ op ∈ ops, Op.aboveEdge e op = true) →
      ExceptAgree (fun ft' pt' => Tracks ft' pt' ∧ pt'.edgeIndex = e)
        (applySeqF ops ft) (applySeqP ops pt)
  | [], ft, pt, tr, hpe, _ => ⟨tr, hpe⟩
  | op :: rest, ft, pt, tr, hpe, hops => by
      have h1 := tracks_applyOp tr op
        (by rw [hpe]; exact hops op (List.mem_cons_self _ _))
      cases hf : applyOpF ft op with
      | error s =>
          cases hp : applyOpP pt op with
          | error s' =>
              rw [hf, hp] at h1
              simpa [applySeqF, applySeqP, hf, hp, ExceptAgree] using h1
          | ok pt' => rw [hf, hp] at h1; exact False.elim h1
      | ok ft' =>
          cases hp : applyOpP pt op with
          | error s => rw [hf, hp] at h1; exact False.elim h1
          | ok pt' =>
              rw [hf, hp] at h1
              obtain ⟨tr', hpe'⟩ := h1
              simp only [applySeqF, applySeqP, hf, hp]
              exact tracks_applySeq e rest ft' pt' tr' (hpe'.trans hpe)
                (fun o ho => hops o (List.mem_cons_of_mem _ ho))

/-- At construction, a partial tree bootstrapped from a full tree's edge at a
valid leaf index satisfies the invariant. -/
theorem tracks_init (ft : MerkleTree) (e : Nat) (he : e < ft.leaves.length)
    (hcap : ft.leaves.length ≤ 2 ^ ft.levels) :
    Tracks ft (partialFromEdge ft e) where
  levels_eq := rfl
  hash_eq := rfl
  zero_eq := rfl
  edge_le := he.le
  edge_lt := lt_of_lt_of_le he hcap
  leaves_eq := rfl
  edgePath_valid := by
    intro l hl hodd
    dsimp only [partialFromEdge] at hodd ⊢
    rw [MerkleTree.getTreeEdgeAt, List.getD_eq_getElem?_getD, List.getElem?_map,
      List.getElem?_range hl]
    simp only [Option.map_some', Option.getD_some]
    rw [MerkleTree.node, sibIdx, if_neg (by omega)]

/-! ### Concrete instances used by witnesses and counterexamples -/

/-- A concrete injected hash function for concrete evaluations. -/
def hconc (a b : Nat) : Nat := a + 2 * b + 1

/-- A concrete full tree of depth 3 with five leaves. -/
def ftA : MerkleTree := ⟨3, hconc, 0, [1, 2, 3, 4, 5]⟩

/-- The partial tree bootstrapped from `ftA`'s edge at leaf index 3. -/
def ptA : PartialMerkleTree := partialFromEdge ftA 3

/-- A concrete full tree of depth 2 filled to capacity. -/
def ftB : MerkleTree := ⟨2, hconc, 0, [1, 2, 3, 4]⟩

/-- The partial tree bootstrapped from `ftB`'s edge at leaf index 1; its
global count equals its capacity. -/
def ptB : PartialMerkleTree := partialFromEdge ftB 1

/-! ### Claim C1 -/

/-- Claim C1: for every full tree and the partial tree constructed from its
edge at a valid leaf index (edge record, leaf suffix from `edgeIndex`, known
root), the roots are equal at construction; and for every prefix (`take k`,
hence after every step) of any operation sequence confined to indices
`≥ edgeIndex`, applying it to both trees either fails identically or succeeds
on both with equal roots. -/
theorem c1_root_equivalence (ft : MerkleTree) (e : Nat)
    (he : e < ft.leaves.length) (hcap : ft.leaves.length ≤ 2 ^ ft.levels)
    (ops : List Op) (hops : ∀ op ∈ ops, Op.aboveEdge e op = true) (k : Nat) :
    (partialFromEdge ft e).root = ft.root ∧
    ExceptAgree (fun ft' pt' => pt'.root = ft'.root)
      (applySeqF (ops.take k) ft)
      (applySeqP (ops.take k) (partialFromEdge ft e)) := by
  have tr := tracks_init ft e he hcap
  refine ⟨tracks_root tr, ?_⟩
  refine exceptAgree_mono
    (fun (a : MerkleTree) (b : PartialMerkleTree)
      (hb : Tracks a b ∧ b.edgeIndex = e) => tracks_root hb.1) ?_
  exact tracks_applySeq e (ops.take k) ft (partialFromEdge ft e) tr rfl
    (fun op hop => hops op (List.take_subset k ops hop))

/-- Witness for C1: the concrete pair `ftA` / `partialFromEdge ftA 3`, with
the sequence `[insert 6, update 3 9]` applied in full. -/
theorem c1_root_equivalence_witness :
    (partialFromEdge ftA 3).root = ftA.root ∧
    ExceptAgree (fun ft' pt' => pt'.root = ft'.root)
      (applySeqF (List.take 2 [Op.ins 6, Op.upd 3 9]) ftA)
      (applySeqP (List.take 2 [Op.ins 6, Op.upd 3 9]) (partialFromEdge ftA 3)) :=
  c1_root_equivalence ftA 3 (by decide) (by decide) [Op.ins 6, Op.upd 3 9]
    (by decide) 2

/-! ### Claim C10 -/

/-- Claim C10: a partial tree constructed from a full tree's edge together
with the full tree's leaf suffix reports the global leaf count
(`edgeIndex + local length`), equal to the full tree's `elements.length`; and
the equality is preserved along every prefix of any identical operation
sequence confined to indices `≥ edgeIndex`. -/
theorem c10_element_count (ft : MerkleTree) (e : Nat)
    (he : e < ft.leaves.length) (hcap : ft.leaves.length ≤ 2 ^ ft.levels)
    (ops : List Op) (hops : ∀ op ∈ ops, Op.aboveEdge e op = true) (k : Nat) :
    (partialFromEdge ft e).elementCount = ft.leaves.length ∧
    ExceptAgree (fun ft' pt' => pt'.elementCount = ft'.leaves.length)
      (applySeqF (ops.take k) ft)
      (applySeqP (ops.take k) (partialFromEdge ft e)) := by
  have tr := tracks_init ft e he hcap
  exact ⟨tracks_count tr,
    exceptAgree_mono
      (fun (a : MerkleTree) (b : PartialMerkleTree)
        (hb : Tracks a b ∧ b.edgeIndex = e) => tracks_count hb.1)
      (tracks_applySeq e (ops.take k) ft _ tr rfl
        (fun op hop => hops op (List.take_subset k ops hop)))⟩

/-- Witness for C10: the concrete pair `ftA` / `partialFromEdge ftA 4`, with
the sequence `[bulkInsert [6, 7], update 4 8]` applied in full. -/
theorem c10_element_count_witness :
    (partialFromEdge ftA 4).elementCount = ftA.leaves.length ∧
    ExceptAgree (fun ft' pt' => pt'.elementCount = ft'.leaves.length)
      (applySeqF (List.take 2 [Op.bulk [6, 7], Op.upd 4 8]) ftA)
      (applySeqP (List.take 2 [Op.bulk [6, 7], Op.upd 4 8]) (partialFromEdge ftA 4)) :=
  c10_element_count ftA 4 (by decide) (by decide) [Op.bulk [6, 7], Op.upd 4 8]
    (by decide) 2

/-! ### Claim C2 -/

theorem bulkInsert_ok (t : MerkleTree) (els : List Nat)
    (h : t.leaves.length + els.length ≤ t.capacity) :
    t.bulkInsert els = .ok { t with leaves := t.leaves ++ els } := by
  rw [MerkleTree.bulkInsert]
  cases els with
  | nil => simp
  | cons a as =>
      rw [if_neg (by simp),
        if_neg (by simp only [List.length_cons] at h ⊢; omega)]

theorem bulkInsertP_ok (t : PartialMerkleTree) (els : List Nat)
    (h : t.elementCount + els.length ≤ t.capacity) :
    t.bulkInsert els = .ok { t with leaves := t.leaves ++ els } := by
  rw [PartialMerkleTree.bulkInsert]
  cases els with
  | nil => simp
  | cons a as =>
      rw [if_neg (by simp),
        if_neg (by simp only [List.length_cons] at h ⊢; omega)]

theorem seqInsertF_ok : ∀ (els : List Nat) (t : MerkleTree),
    t.leaves.length + els.length ≤ t.capacity →
    seqInsertF t els = .ok { t with leaves := t.leaves ++ els }
  | [], t, _ => by simp [seqInsertF]
  | el :: rest, t, h => by
      have h1 : t.insert el = .ok { t with leaves := t.leaves ++ [el] } := by
        rw [MerkleTree.insert,
          if_neg (by simp only [List.length_cons] at h; omega)]
      rw [seqInsertF, h1]
      show seqInsertF { t with leaves := t.leaves ++ [el] } rest = _
      rw [seqInsertF_ok rest _ (by
        simp only [List.length_cons, MerkleTree.capacity] at h
        simp only [MerkleTree.capacity, List.length_append,
          List.length_singleton]
        omega)]
      simp [List.append_assoc]

theorem seqInsertP_ok : ∀ (els : List Nat) (t : PartialMerkleTree),
    t.elementCount + els.length ≤ t.capacity →
    seqInsertP t els = .ok { t with leaves := t.leaves ++ els }
  | [], t, _ => by simp [seqInsertP]
  | el :: rest, t, h => by
      have h1 : t.insert el = .ok { t with leaves := t.leaves ++ [el] } := by
        rw [PartialMerkleTree.insert,
          if_neg (by simp only [List.length_cons] at h; omega)]
      rw [seqInsertP, h1]
      show seqInsertP { t with leaves := t.leaves ++ [el] } rest = _
      rw [seqInsertP_ok rest _ (by
        simp only [List.length_cons, PartialMerkleTree.capacity,
          PartialMerkleTree.elementCount] at h
        simp only [PartialMerkleTree.capacity, PartialMerkleTree.elementCount,
          List.length_append, List.length_singleton]
        omega)]
      simp [List.append_assoc]

/-- Claim C2: on any tree, full or partial, whose remaining capacity admits
the batch, `bulkInsert(list)` returns the very same result as one `insert`
per element of the list in order (so in particular the same root); and
`bulkInsert([])` is a no-op returning the unchanged tree (same element count,
same root). -/
theorem c2_bulk_eq_sequential :
    (∀ (t : MerkleTree) (els : List Nat),
        t.leaves.length + els.length ≤ t.capacity →
        t.bulkInsert els = seqInsertF t els) ∧
    (∀ t : MerkleTree, t.bulkInsert [] = Except.ok t) ∧
    (∀ (t : PartialMerkleTree) (els : List Nat),
        t.elementCount + els.length ≤ t.capacity →
        t.bulkInsert els = seqInsertP t els) ∧
    (∀ t : PartialMerkleTree, t.bulkInsert [] = Except.ok t) := by
  refine ⟨fun t els h => ?_, fun t => rfl, fun t els h => ?_, fun t => rfl⟩
  · rw [bulkInsert_ok t els h, seqInsertF_ok els t h]
  · rw [bulkInsertP_ok t els h, seqInsertP_ok els t h]

/-- Witness for C2: batch and sequential insertion coincide on the concrete
trees `ftA` and `ptA` for the batch `[6, 7]`. -/
theorem c2_bulk_eq_sequential_witness :
    MerkleTree.bulkInsert ftA [6, 7] = seqInsertF ftA [6, 7] ∧
    PartialMerkleTree.bulkInsert ptA [6, 7] = seqInsertP ptA [6, 7] :=
  ⟨c2_bulk_eq_sequential.1 ftA [6, 7] (by decide),
   c2_bulk_eq_sequential.2.2.1 ptA [6, 7] (by decide)⟩

/-! ### Claim C3 -/

theorem node_succ (t : MerkleTree) (l j : Nat) :
    t.node (l + 1) j = t.hashFn (t.node l (2 * j)) (t.node l (2 * j + 1)) := rfl

theorem node_succP (t : PartialMerkleTree) (l j : Nat) :
    t.node (l + 1) j = t.hashFn
      (if 2 * j < t.edgeIndex / 2 ^ l then t.edgePath.getD l t.zeroElement
       else t.node l (2 * j))
      (if 2 * j + 1 < t.edgeIndex / 2 ^ l then t.edgePath.getD l t.zeroElement
       else t.node l (2 * j + 1)) := rfl

/-- Folding the hash over the sibling path climbs the full tree: starting
from `Node(level, i)` and consuming `k` path entries lands on
`Node(level + k, i / 2^k)`. -/
theorem recompute_pathFrom (t : MerkleTree) :
    ∀ (k level i : Nat),
      recomputeRoot t.hashFn (t.node level i) (t.pathFrom level k i) =
        t.node (level + k) (i / 2 ^ k) := by
  intro k
  induction k with
  | zero => intro level i; simp [MerkleTree.pathFrom, recomputeRoot]
  | succ k ih =>
      intro level i
      simp only [MerkleTree.pathFrom, recomputeRoot]
      have hstep : (if i % 2 = 0 then
            t.hashFn (t.node level i) (t.node level (sibIdx i))
          else t.hashFn (t.node level (sibIdx i)) (t.node level i)) =
          t.node (level + 1) (i / 2) := by
        by_cases hpar : i % 2 = 0
        · have hs : sibIdx i = i + 1 := by rw [sibIdx, if_pos hpar]
          rw [if_pos hpar, hs, node_succ,
            show 2 * (i / 2) = i from by omega]
        · have hs : sibIdx i = i - 1 := by rw [sibIdx, if_neg hpar]
          rw [if_neg hpar, hs, node_succ,
            show 2 * (i / 2) = i - 1 from by omega,
            show i - 1 + 1 = i from by omega]
      rw [hstep, ih (level + 1) (i / 2)]
      congr 1
      · omega
      · rw [Nat.div_div_eq_div_mul, pow_succ 2 k, Nat.mul_comm]

/-- The partial-tree analogue: for a walk position at or beyond the boundary
of its level, folding the hash over the partial path (with its `edgePath`
substitutions) climbs the partial tree. -/
theorem recompute_pathFromP (t : PartialMerkleTree) :
    ∀ (k level i : Nat), t.edgeIndex / 2 ^ level ≤ i →
      recomputeRoot t.hashFn (t.node level i) (t.pathFrom level k i) =
        t.node (level + k) (i / 2 ^ k) := by
  intro k
  induction k with
  | zero => intro level i _; simp [PartialMerkleTree.pathFrom, recomputeRoot]
  | succ k ih =>
      intro level i hi
      simp only [PartialMerkleTree.pathFrom, recomputeRoot]
      have hb2 : t.edgeIndex / 2 ^ (level + 1) ≤ i / 2 := by
        rw [pow_succ, ← Nat.div_div_eq_div_mul]
        exact Nat.div_le_div_right hi
      have hstep : (if i % 2 = 0 then
            t.hashFn (t.node level i)
              (if sibIdx i < t.edgeIndex / 2 ^ level then
                t.edgePath.getD level t.zeroElement
               else t.node level (sibIdx i))
          else t.hashFn
              (if sibIdx i < t.edgeIndex / 2 ^ level then
                t.edgePath.getD level t.zeroElement
               else t.node level (sibIdx i)) (t.node level i)) =
          t.node (level + 1) (i / 2) := by
        have hni : ¬ i < t.edgeIndex / 2 ^ level := by omega
        by_cases hpar : i % 2 = 0
        · have hs : sibIdx i = i + 1 := by rw [sibIdx, if_pos hpar]
          rw [if_pos hpar, hs, node_succP,
            show 2 * (i / 2) = i from by omega, if_neg hni]
        · have hs : sibIdx i = i - 1 := by rw [sibIdx, if_neg hpar]
          rw [if_neg hpar, hs, node_succP,
            show 2 * (i / 2) = i - 1 from by omega,
            show i - 1 + 1 = i from by omega, if_neg hni]
      rw [hstep, ih (level + 1) (i / 2) hb2]
      congr 1
      · omega
      · rw [Nat.div_div_eq_div_mul, pow_succ 2 k, Nat.mul_comm]

/-- Claim C3: for every tree (full, and partial at addressable indices) and
every valid index `i`, `path(i)` succeeds and folding the configured hash
function over its ordered sibling digests and left/right indicators, starting
from `elements[i]`, yields exactly `tree.root`. -/
theorem c3_proof_consistency :
    (∀ t : MerkleTree, t.leaves.length ≤ t.capacity → ∀ i : Nat,
        i < t.leaves.length →
        t.path (.int i) = .ok (t.pathFrom 0 t.levels i) ∧
        recomputeRoot t.hashFn (t.leaves.getD i t.zeroElement)
          (t.pathFrom 0 t.levels i) = t.root) ∧
    (∀ t : PartialMerkleTree, t.elementCount ≤ t.capacity → ∀ i : Nat,
        t.edgeIndex ≤ i → i < t.elementCount →
        t.path (.int i) = .ok (t.pathFrom 0 t.levels i) ∧
        recomputeRoot t.hashFn (t.leaves.getD (i - t.edgeIndex) t.zeroElement)
          (t.pathFrom 0 t.levels i) = t.root) := by
  constructor
  · intro t hwf i hi
    rw [MerkleTree.capacity] at hwf
    have hlt : i < 2 ^ t.levels := lt_of_lt_of_le hi hwf
    constructor
    · simp only [MerkleTree.path]
      rw [if_neg (by omega), Int.toNat_natCast]
    · have h0 : t.leaves.getD i t.zeroElement = t.node 0 i := rfl
      have h2 := recompute_pathFrom t t.levels 0 i
      rw [Nat.zero_add, Nat.div_eq_of_lt hlt] at h2
      rw [h0, h2, MerkleTree.root]
  · intro t hwf i hei hi
    rw [PartialMerkleTree.capacity] at hwf
    have hlt : i < 2 ^ t.levels := lt_of_lt_of_le hi hwf
    constructor
    · simp only [PartialMerkleTree.path]
      rw [if_neg (by omega), if_neg (by omega), Int.toNat_natCast]
    · have h0 : t.leaves.getD (i - t.edgeIndex) t.zeroElement = t.node 0 i := by
        simp only [PartialMerkleTree.node, pnodeOf]
        rw [if_neg (by omega)]
      have hb0 : t.edgeIndex / 2 ^ 0 ≤ i := by
        rw [pow_zero, Nat.div_one]; exact hei
      have h2 := recompute_pathFromP t t.levels 0 i hb0
      rw [Nat.zero_add, Nat.div_eq_of_lt hlt] at h2
      rw [h0, h2, PartialMerkleTree.root]

/-- Witness for C3: concrete proof paths on `ftA` (index 1) and `ptA`
(index 4) recompute the respective roots. -/
theorem c3_proof_consistency_witness :
    (MerkleTree.path ftA (Idx.int 1) =
        Except.ok (MerkleTree.pathFrom ftA 0 ftA.levels 1) ∧
      recomputeRoot ftA.hashFn (ftA.leaves.getD 1 ftA.zeroElement)
        (MerkleTree.pathFrom ftA 0 ftA.levels 1) = ftA.root) ∧
    (PartialMerkleTree.path ptA (Idx.int 4) =
        Except.ok (PartialMerkleTree.pathFrom ptA 0 ptA.levels 4) ∧
      recomputeRoot ptA.hashFn (ptA.leaves.getD (4 - ptA.edgeIndex) ptA.zeroElement)
        (PartialMerkleTree.pathFrom ptA 0 ptA.levels 4) = ptA.root) :=
  ⟨c3_proof_consistency.1 ftA (by decide) 1 (by decide),
   c3_proof_consistency.2 ptA (by decide) 4 (by decide) (by decide)⟩

/-! ### Claim C4 -/

/-- Claim C4: for every tree, full or partial, the `capacity` getter returns
`2^levels`; and construction fails with the capacity error exactly when the
initial element count (for a partial tree, `edgeIndex` plus the suffix
length) exceeds `2^levels`. -/
theorem c4_capacity :
    (∀ t : MerkleTree, t.capacity = 2 ^ t.levels) ∧
    (∀ t : PartialMerkleTree, t.capacity = 2 ^ t.levels) ∧
    (∀ (levels z : Nat) (hashFn : Nat → Nat → Nat) (els : List Nat),
        (els.length ≤ 2 ^ levels →
          MerkleTree.make levels hashFn z els =
            Except.ok ⟨levels, hashFn, z, els⟩) ∧
        (2 ^ levels < els.length →
          MerkleTree.make levels hashFn z els = Except.error "Tree is full")) ∧
    (∀ (levels z e : Nat) (hashFn : Nat → Nat → Nat) (ep ls : List Nat),
        (e + ls.length ≤ 2 ^ levels →
          PartialMerkleTree.make levels hashFn z e ep ls =
            Except.ok ⟨levels, hashFn, z, e, ep, ls⟩) ∧
        (2 ^ levels < e + ls.length →
          PartialMerkleTree.make levels hashFn z e ep ls =
            Except.error "Tree is full")) := by
  refine ⟨fun t => rfl, fun t => rfl,
    fun levels z hashFn els => ⟨fun h => ?_, fun h => ?_⟩,
    fun levels z e hashFn ep ls => ⟨fun h => ?_, fun h => ?_⟩⟩
  · rw [MerkleTree.make, if_neg (by omega)]
  · rw [MerkleTree.make, if_pos (by omega)]
  · rw [PartialMerkleTree.make, if_neg (by omega)]
  · rw [PartialMerkleTree.make, if_pos (by omega)]

/-- Witness for C4 at concrete depths: capacity 8 for the depth-3 trees, and
the constructors at depth 2 accepting three initial leaves and rejecting
five. -/
theorem c4_capacity_witness :
    ftA.capacity = 8 ∧ ptA.capacity = 8 ∧
    MerkleTree.make 2 hconc 0 [1, 2, 3] = Except.ok ⟨2, hconc, 0, [1, 2, 3]⟩ ∧
    MerkleTree.make 2 hconc 0 [1, 2, 3, 4, 5] = Except.error "Tree is full" ∧
    PartialMerkleTree.make 2 hconc 0 3 [9] [4] =
      Except.ok ⟨2, hconc, 0, 3, [9], [4]⟩ ∧
    PartialMerkleTree.make 2 hconc 0 3 [9] [4, 5] =
      Except.error "Tree is full" :=
  ⟨(c4_capacity.1 ftA).trans (by decide),
   (c4_capacity.2.1 ptA).trans (by decide),
   (c4_capacity.2.2.1 2 0 hconc [1, 2, 3]).1 (by decide),
   (c4_capacity.2.2.1 2 0 hconc [1, 2, 3, 4, 5]).2 (by decide),
   (c4_capacity.2.2.2 2 0 3 hconc [9] [4]).1 (by decide),
   (c4_capacity.2.2.2 2 0 3 hconc [9] [4, 5]).2 (by decide)⟩

/-! ### Claim C5 -/

/-- Counterexample for C5: on the concrete partial tree `ptA` (edge index 3),
updating pruned index 2 does fail, but with the message
`Index 2 is below the edge: 3` -- capital `Index`, not the message
`index 2 is below the edge: 3` quoted by the claim; moreover a negative index
(also below the edge) fails with the bounds message, not the edge message. -/
theorem c5_counterexample :
    PartialMerkleTree.update ptA (Idx.int 2) 42 =
      Except.error "Index 2 is below the edge: 3" ∧
    "Index 2 is below the edge: 3" ≠ "index 2 is below the edge: 3" ∧
    PartialMerkleTree.update ptA (Idx.int (-1)) 42 =
      Except.error "Insert index out of bounds: -1" :=
  ⟨rfl, by decide, rfl⟩

/-- Claim C5 (amended): for every partial tree whose global count is within
capacity and every natural index `i`: if `i < edgeIndex`, both `update` and
`path` fail with the edge-range error naming both values, with message
`Index <i> is below the edge: <edgeIndex>` (capital `Index`; negative or
non-numeric indices fail with the bounds errors instead); and both succeed
for every addressable `i` with `edgeIndex ≤ i <` the global element count. -/
theorem c5_edge_errors (t : PartialMerkleTree)
    (hwf : t.elementCount ≤ t.capacity) (i : Nat) (el : Nat) :
    (i < t.edgeIndex →
      t.update (.int i) el =
        .error ("Index " ++ toString i ++ " is below the edge: " ++
          toString t.edgeIndex) ∧
      t.path (.int i) =
        .error ("Index " ++ toString i ++ " is below the edge: " ++
          toString t.edgeIndex)) ∧
    (t.edgeIndex ≤ i → i < t.elementCount →
      (∃ t', t.update (.int i) el = .ok t') ∧
      (∃ p, t.path (.int i) = .ok p)) := by
  have hcount : t.edgeIndex ≤ t.elementCount := Nat.le_add_right _ _
  constructor
  · intro hlt
    have h1 : i < t.elementCount := lt_of_lt_of_le hlt hcount
    constructor
    · simp only [PartialMerkleTree.update]
      rw [if_neg (by omega), if_pos (by omega)]
      rfl
    · simp only [PartialMerkleTree.path]
      rw [if_neg (by omega), if_pos (by omega)]
      rfl
  · intro hge hi
    constructor
    · refine ⟨{ t with leaves := setLeaf t.leaves (i - t.edgeIndex) el }, ?_⟩
      simp only [PartialMerkleTree.update]
      rw [if_neg (by omega), if_neg (by omega), Int.toNat_natCast]
    · refine ⟨t.pathFrom 0 t.levels i, ?_⟩
      simp only [PartialMerkleTree.path]
      rw [if_neg (by omega), if_neg (by omega), Int.toNat_natCast]

/-- Witness for C5: on `ptA` (edge index 3, global count 5), index 2 draws
the edge errors and index 4 is accepted by both operations. -/
theorem c5_edge_errors_witness :
    (PartialMerkleTree.update ptA (Idx.int 2) 42 =
        Except.error ("Index " ++ toString 2 ++ " is below the edge: " ++
          toString ptA.edgeIndex) ∧
      PartialMerkleTree.path ptA (Idx.int 2) =
        Except.error ("Index " ++ toString 2 ++ " is below the edge: " ++
          toString ptA.edgeIndex)) ∧
    ((∃ t', PartialMerkleTree.update ptA (Idx.int 4) 42 = Except.ok t') ∧
      (∃ p, PartialMerkleTree.path ptA (Idx.int 4) = Except.ok p)) :=
  ⟨(c5_edge_errors ptA (by decide) 2 42).1 (by decide),
   (c5_edge_errors ptA (by decide) 4 42).2 (by decide) (by decide)⟩

/-! ### Claim C6 -/

/-- Counterexample for C6: the concrete partial tree `ptB` is exactly at
capacity 4; `update` referencing leaf index 4 (at capacity) fails, but with
the index message `Insert index out of bounds: 4`, not the capacity message
`Tree is full` asserted by the claim for `update`. -/
theorem c6_counterexample :
    ptB.elementCount = ptB.capacity ∧
    PartialMerkleTree.update ptB (Idx.int 4) 42 =
      Except.error "Insert index out of bounds: 4" ∧
    "Insert index out of bounds: 4" ≠ "Tree is full" :=
  ⟨rfl, rfl, by decide⟩

/-- Claim C6 (amended): `insert` and `bulkInsert` fail with the capacity
error `Tree is full` when they would push the leaf count (the global count
`edgeIndex + local count` for a partial tree) beyond `capacity`; inserting
while strictly below capacity never fails (so filling up to exactly capacity
succeeds); but `update` referencing an index at or beyond capacity fails with
the index error `Insert index out of bounds: <i>`, not the capacity error. -/
theorem c6_capacity_errors :
    (∀ (t : MerkleTree) (el : Nat),
        (t.capacity ≤ t.leaves.length → t.insert el = .error "Tree is full") ∧
        (t.leaves.length < t.capacity →
          t.insert el = .ok { t with leaves := t.leaves ++ [el] })) ∧
    (∀ (t : MerkleTree) (els : List Nat), els ≠ [] →
        t.capacity < t.leaves.length + els.length →
        t.bulkInsert els = .error "Tree is full") ∧
    (∀ (t : MerkleTree) (i : Int) (el : Nat), (t.capacity : Int) ≤ i →
        t.update (.int i) el =
          .error ("Insert index out of bounds: " ++ toString i)) ∧
    (∀ (t : PartialMerkleTree) (el : Nat),
        (t.capacity ≤ t.elementCount → t.insert el = .error "Tree is full") ∧
        (t.elementCount < t.capacity →
          t.insert el = .ok { t with leaves := t.leaves ++ [el] })) ∧
    (∀ (t : PartialMerkleTree) (els : List Nat), els ≠ [] →
        t.capacity < t.elementCount + els.length →
        t.bulkInsert els = .error "Tree is full") ∧
    (∀ (t : PartialMerkleTree) (i : Int) (el : Nat), (t.capacity : Int) ≤ i →
        t.update (.int i) el =
          .error ("Insert index out of bounds: " ++ toString i)) := by
  refine ⟨fun t el => ⟨fun h => ?_, fun h => ?_⟩, fun t els hne h => ?_,
    fun t i el h => ?_, fun t el => ⟨fun h => ?_, fun h => ?_⟩,
    fun t els hne h => ?_, fun t i el h => ?_⟩
  · rw [MerkleTree.insert, if_pos h]
  · rw [MerkleTree.insert, if_neg (by omega)]
  · rw [MerkleTree.bulkInsert, if_neg (by simpa using hne), if_pos h]
  · simp only [MerkleTree.update]
    rw [if_pos (Or.inr (Or.inr h))]
  · rw [PartialMerkleTree.insert, if_pos h]
  · rw [PartialMerkleTree.insert, if_neg (by omega)]
  · rw [PartialMerkleTree.bulkInsert, if_neg (by simpa using hne), if_pos h]
  · simp only [PartialMerkleTree.update]
    rw [if_pos (Or.inr (Or.inr h))]

/-- Witness for C6 on the concrete trees: `ftB`/`ptB` are at capacity, so
`insert`/`bulkInsert` fail with `Tree is full` while `update` at index 4
fails with the index message; `insert` below capacity on `ftA` succeeds. -/
theorem c6_capacity_errors_witness :
    MerkleTree.insert ftB 9 = Except.error "Tree is full" ∧
    MerkleTree.insert ftA 6 = Except.ok { ftA with leaves := ftA.leaves ++ [6] } ∧
    MerkleTree.bulkInsert ftB [9] = Except.error "Tree is full" ∧
    MerkleTree.update ftB (Idx.int 4) 9 =
      Except.error ("Insert index out of bounds: " ++ toString (4 : Int)) ∧
    PartialMerkleTree.insert ptB 9 = Except.error "Tree is full" ∧
    PartialMerkleTree.bulkInsert ptB [9] = Except.error "Tree is full" ∧
    PartialMerkleTree.update ptB (Idx.int 4) 9 =
      Except.error ("Insert index out of bounds: " ++ toString (4 : Int)) :=
  ⟨(c6_capacity_errors.1 ftB 9).1 (by decide),
   (c6_capacity_errors.1 ftA 6).2 (by decide),
   c6_capacity_errors.2.1 ftB [9] (by decide) (by decide),
   c6_capacity_errors.2.2.1 ftB 4 9 (by decide),
   (c6_capacity_errors.2.2.2.1 ptB 9).1 (by decide),
   c6_capacity_errors.2.2.2.2.1 ptB [9] (by decide) (by decide),
   c6_capacity_errors.2.2.2.2.2 ptB 4 9 (by decide)⟩

/-! ### Claim C7 -/

/-- Counterexample for C7: on the concrete partial tree `ptB`, whose element
count is 4 (equal to capacity), `update` at index 4 -- inside the claimed
acceptance range `[0, elements.length]` -- is rejected; and the actual
messages are `Insert index out of bounds: <v>` for `update` and
`Index out of bounds: <v>` for `path`, neither being the claimed
`index out of bounds: <value>`. -/
theorem c7_counterexample :
    ptB.elementCount = 4 ∧
    PartialMerkleTree.update ptB (Idx.int 4) 42 =
      Except.error "Insert index out of bounds: 4" ∧
    PartialMerkleTree.path ptB (Idx.int (-1)) =
      Except.error "Index out of bounds: -1" ∧
    "Insert index out of bounds: 4" ≠ "index out of bounds: 4" ∧
    "Index out of bounds: -1" ≠ "index out of bounds: -1" :=
  ⟨rfl, rfl, rfl, by decide, by decide⟩

/-- Claim C7 (amended): `update(index, element)` accepts exactly the indices
in `[0, elements.length]` that are also strictly below `capacity` (for a
partial tree, additionally at or above `edgeIndex`, the count being the
global one); rejected numeric or non-numeric indices fail with
`Insert index out of bounds: <value>` for `update` and
`Index out of bounds: <value>` for `path`, naming the offending value. -/
theorem c7_index_validation :
    (∀ (t : MerkleTree) (i : Int) (el : Nat),
        ((∃ t', t.update (.int i) el = .ok t') ↔
          (0 ≤ i ∧ i ≤ (t.leaves.length : Int) ∧ i < (t.capacity : Int))) ∧
        (i < 0 ∨ (t.leaves.length : Int) < i ∨ (t.capacity : Int) ≤ i →
          t.update (.int i) el =
            .error ("Insert index out of bounds: " ++ toString i))) ∧
    (∀ (t : MerkleTree) (s : String) (el : Nat),
        t.update (.nan s) el = .error ("Insert index out of bounds: " ++ s)) ∧
    (∀ (t : MerkleTree) (i : Int),
        ((∃ p, t.path (.int i) = .ok p) ↔
          (0 ≤ i ∧ i < (t.leaves.length : Int))) ∧
        (i < 0 ∨ (t.leaves.length : Int) ≤ i →
          t.path (.int i) = .error ("Index out of bounds: " ++ toString i))) ∧
    (∀ (t : MerkleTree) (s : String),
        t.path (.nan s) = .error ("Index out of bounds: " ++ s)) ∧
    (∀ (t : PartialMerkleTree) (i : Int) (el : Nat),
        (∃ t', t.update (.int i) el = .ok t') ↔
          ((t.edgeIndex : Int) ≤ i ∧ i ≤ (t.elementCount : Int) ∧
            i < (t.capacity : Int))) ∧
    (∀ (t : PartialMerkleTree) (s : String) (el : Nat),
        t.update (.nan s) el = .error ("Insert index out of bounds: " ++ s)) ∧
    (∀ (t : PartialMerkleTree) (s : String),
        t.path (.nan s) = .error ("Index out of bounds: " ++ s)) := by
  refine ⟨fun t i el => ⟨⟨?_, ?_⟩, fun h => ?_⟩, fun t s el => rfl,
    fun t i => ⟨⟨?_, ?_⟩, fun h => ?_⟩, fun t s => rfl,
    fun t i el => ⟨?_, ?_⟩, fun t s el => rfl, fun t s => rfl⟩
  · rintro ⟨t', ht⟩
    by_cases hcond : i < 0 ∨ (t.leaves.length : Int) < i ∨ (t.capacity : Int) ≤ i
    · simp only [MerkleTree.update] at ht
      rw [if_pos hcond] at ht
      exact absurd ht (by simp)
    · omega
  · rintro ⟨h1, h2, h3⟩
    refine ⟨{ t with leaves := setLeaf t.leaves i.toNat el }, ?_⟩
    simp only [MerkleTree.update]
    rw [if_neg (by omega)]
  · simp only [MerkleTree.update]
    rw [if_pos h]
  · rintro ⟨p, hp⟩
    by_cases hcond : i < 0 ∨ (t.leaves.length : Int) ≤ i
    · simp only [MerkleTree.path] at hp
      rw [if_pos hcond] at hp
      exact absurd hp (by simp)
    · omega
  · rintro ⟨h1, h2⟩
    refine ⟨t.pathFrom 0 t.levels i.toNat, ?_⟩
    simp only [MerkleTree.path]
    rw [if_neg (by omega)]
  · simp only [MerkleTree.path]
    rw [if_pos h]
  · rintro ⟨t', ht⟩
    simp only [PartialMerkleTree.update] at ht
    by_cases hcond : i < 0 ∨ (t.elementCount : Int) < i ∨ (t.capacity : Int) ≤ i
    · rw [if_pos hcond] at ht
      exact absurd ht (by simp)
    · rw [if_neg hcond] at ht
      by_cases hedge : i < (t.edgeIndex : Int)
      · rw [if_pos hedge] at ht
        exact absurd ht (by simp)
      · omega
  · rintro ⟨h1, h2, h3⟩
    refine ⟨{ t with leaves := setLeaf t.leaves (i.toNat - t.edgeIndex) el }, ?_⟩
    simp only [PartialMerkleTree.update]
    rw [if_neg (by omega), if_neg (by omega)]

/-- Witness for C7 on concrete trees: extension at the current count is
accepted, out-of-range and non-numeric indices draw the two message shapes. -/
theorem c7_index_validation_witness :
    (∃ t', MerkleTree.update ftA (Idx.int 5) 9 = Except.ok t') ∧
    MerkleTree.update ftA (Idx.int 6) 9 =
      Except.error ("Insert index out of bounds: " ++ toString (6 : Int)) ∧
    MerkleTree.update ftA (Idx.nan "qwe") 9 =
      Except.error ("Insert index out of bounds: " ++ "qwe") ∧
    MerkleTree.path ftA (Idx.int (-1)) =
      Except.error ("Index out of bounds: " ++ toString (-1 : Int)) ∧
    (∃ t', PartialMerkleTree.update ptA (Idx.int 5) 9 = Except.ok t') :=
  ⟨((c7_index_validation.1 ftA 5 9).1).mpr (by decide),
   (c7_index_validation.1 ftA 6 9).2 (by decide),
   c7_index_validation.2.1 ftA "qwe" 9,
   (c7_index_validation.2.2.1 ftA (-1)).2 (by decide),
   (c7_index_validation.2.2.2.2.1 ptA 5 9).mpr (by decide)⟩

/-! ### Claim C8 -/

/-- The default-hash preprocessing from `src/src/sha256.js`: each operand (a
JavaScript string, modelled as its list of characters) is truncated with
`substring(0, 64)` -- an operand shorter than 64 characters is left unchanged
-- and the two results are concatenated into the digest input. -/
def sha256Input (left right : List Char) : List Char :=
  left.take 64 ++ right.take 64

/-- The default hash from `src/src/sha256.js`: the cryptographic digest
(`crypto.createHash('sha256')....digest('hex')`, an external collaborator per
spec §1, abstracted here as `digest`) applied to the preprocessed
concatenation. -/
def sha256 (digest : List Char → List Char) (left right : List Char) :
    List Char :=
  digest (sha256Input left right)

/-- Counterexample for C8: the claim says every operand is truncated or
padded to exactly 64 hex characters, making the digest input always 128
characters long; but `sha256.js` only truncates (`substring(0, 64)`), so for
the one-character operands `a` and `b` the digest input is the two-character
string `ab` -- no padding happens. -/
theorem c8_counterexample :
    sha256Input ("a".toList) ("b".toList) = "ab".toList ∧
    ("ab".toList).length = 2 ∧ (2 : Nat) ≠ 128 :=
  ⟨rfl, rfl, by decide⟩

/-- Claim C8 (amended): the default hash function truncates each operand to
at most its first 64 characters -- operands shorter than 64 characters are
used as-is, without padding -- concatenates the two results, and returns the
digest of the concatenation; the digest input has length
`min |left| 64 + min |right| 64`, not a constant 128. -/
theorem c8_default_hash (digest : List Char → List Char)
    (left right : List Char) :
    sha256 digest left right = digest (left.take 64 ++ right.take 64) ∧
    (sha256Input left right).length =
      min left.length 64 + min right.length 64 ∧
    (left.length ≤ 64 → right.length ≤ 64 →
      sha256Input left right = left ++ right) := by
  refine ⟨rfl, ?_, fun h1 h2 => ?_⟩
  · rw [sha256Input, List.length_append, List.length_take, List.length_take,
      Nat.min_comm 64 left.length, Nat.min_comm 64 right.length]
  · rw [sha256Input, List.take_of_length_le h1, List.take_of_length_le h2]

/-- Witness for C8: the amended statement evaluated at the identity digest
and the one-character operands `a`, `b`. -/
theorem c8_default_hash_witness :
    sha256 (fun x => x) "a".toList "b".toList =
      ("a".toList.take 64 ++ "b".toList.take 64) ∧
    (sha256Input "a".toList "b".toList).length =
      min ("a".toList).length 64 + min ("b".toList).length 64 ∧
    sha256Input "a".toList "b".toList = "a".toList ++ "b".toList :=
  ⟨(c8_default_hash (fun x => x) "a".toList "b".toList).1,
   (c8_default_hash (fun x => x) "a".toList "b".toList).2.1,
   (c8_default_hash (fun x => x) "a".toList "b".toList).2.2
     (by decide) (by decide)⟩

/-! ### Claim C9: serialization

The serialized record carries `levels`, `root`, `zeroElement` and the
elements (plus `edgeIndex`/`edgePath` for the partial variant), per spec §6.
The textual encoding produced by `toString()` (a JSON rendering in the code)
is modelled as a decimal rendering of the record into a list of characters,
with a decoder standing in for `JSON.parse`. -/

structure SerializedFull where
  levels : Nat
  root : Nat
  zeroElement : Nat
  leaves : List Nat

structure SerializedPartial where
  levels : Nat
  root : Nat
  zeroElement : Nat
  edgeIndex : Nat
  edgePath : List Nat
  leaves : List Nat

/-- Modelled from the spec: `serialize` on a full tree produces the record
`(levels, root, zeroElement, elements)`. -/
def MerkleTree.serialize (t : MerkleTree) : SerializedFull :=
  ⟨t.levels, t.root, t.zeroElement, t.leaves⟩

/-- Modelled from the spec: `deserialize` rebuilds a full tree from the
record; the hash function, not being serializable, is injected as at
construction. -/
def MerkleTree.deserialize (hashFn : Nat → Nat → Nat) (d : SerializedFull) :
    MerkleTree :=
  ⟨d.levels, hashFn, d.zeroElement, d.leaves⟩

/-- Modelled from the spec: `serialize` on a partial tree additionally
persists `edgeIndex` and `edgePath`. -/
def PartialMerkleTree.serialize (t : PartialMerkleTree) : SerializedPartial :=
  ⟨t.levels, t.root, t.zeroElement, t.edgeIndex, t.edgePath, t.leaves⟩

/-- Modelled from the spec: `deserialize` rebuilds a partial tree from the
record, addressable only from the same boundary. -/
def PartialMerkleTree.deserialize (hashFn : Nat → Nat → Nat)
    (d : SerializedPartial) : PartialMerkleTree :=
  ⟨d.levels, hashFn, d.zeroElement, d.edgeIndex, d.edgePath, d.leaves⟩

/-- The separator of the textual encoding (the space character). -/
def sepChar : Char := Char.ofNat 32

/-- The character for decimal digit `d`. -/
def digitChar (d : Nat) : Char := Char.ofNat (48 + d)

/-- The decimal digit denoted by a digit character. -/
def charDigit (c : Char) : Nat := c.toNat - 48

/-- Whether a character is a decimal digit. -/
def isDigitC (c : Char) : Bool :=
  decide (48 ≤ c.toNat) && decide (c.toNat ≤ 57)

/-- Decimal rendering of a number, most significant digit first. -/
def encNat (n : Nat) : List Char :=
  if n = 0 then [digitChar 0] else (Nat.digits 10 n).reverse.map digitChar

/-- The number denoted by a most-significant-first digit token. -/
def decodeTok (cs : List Char) : Nat :=
  Nat.ofDigits 10 ((cs.map charDigit).reverse)

/-- Textual rendering of a number sequence, each number followed by the
separator. -/
def encSeq : List Nat → List Char
  | [] => []
  | n :: rest => encNat n ++ sepChar :: encSeq rest

/-- Read one separator-terminated decimal token. -/
def parseNat1 (cs : List Char) : Option (Nat × List Char) :=
  match cs.takeWhile isDigitC, cs.dropWhile isDigitC with
  | d :: ds, c :: rest =>
      if c = sepChar then some (decodeTok (d :: ds), rest) else none
  | _, _ => none

/-- Read a fixed number of decimal tokens. -/
def parseSeq : Nat → List Char → Option (List Nat × List Char)
  | 0, cs => some ([], cs)
  | k + 1, cs =>
      match parseNat1 cs with
      | some (n, rest) =>
          match parseSeq k rest with
          | some (ns, r) => some (n :: ns, r)
          | none => none
      | none => none

theorem charDigit_digitChar {d : Nat} (hd : d < 10) :
    charDigit (digitChar d) = d := by
  interval_cases d <;> rfl

theorem isDigitC_digitChar {d : Nat} (hd : d < 10) :
    isDigitC (digitChar d) = true := by
  interval_cases d <;> rfl

theorem encNat_ne_nil (n : Nat) : encNat n ≠ [] := by
  rw [encNat]
  split
  · simp
  · simp only [ne_eq, List.map_eq_nil_iff, List.reverse_eq_nil_iff]
    exact Nat.digits_ne_nil_iff_ne_zero.mpr (by assumption)

theorem isDigitC_of_mem_encNat {n : Nat} {c : Char} (hc : c ∈ encNat n) :
    isDigitC c = true := by
  rw [encNat] at hc
  split at hc
  · rw [List.mem_singleton] at hc
    subst hc
    rfl
  · obtain ⟨d, hd, rfl⟩ := List.mem_map.1 hc
    exact isDigitC_digitChar
      (Nat.digits_lt_base (by norm_num) (List.mem_reverse.1 hd))

theorem map_charDigit_digitChar (l : List Nat) (h : ∀ d ∈ l, d < 10) :
    (l.map digitChar).map charDigit = l := by
  induction l with
  | nil => rfl
  | cons d rest ih =>
      simp only [List.map_cons, List.cons.injEq]
      exact ⟨charDigit_digitChar (h d (List.mem_cons_self _ _)),
        ih fun x hx => h x (List.mem_cons_of_mem _ hx)⟩

theorem decodeTok_encNat (n : Nat) : decodeTok (encNat n) = n := by
  rw [encNat]
  split
  · rename_i h0
    subst h0
    rfl
  · rw [decodeTok, map_charDigit_digitChar _
      (fun d hd => Nat.digits_lt_base (by norm_num) (List.mem_reverse.1 hd)),
      List.reverse_reverse, Nat.ofDigits_digits]

theorem takeWhile_all_append {p : Char → Bool} :
    ∀ (l1 : List Char), (∀ c ∈ l1, p c = true) →
      ∀ (x : Char) (l2 : List Char), p x = false →
        (l1 ++ x :: l2).takeWhile p = l1 ∧ (l1 ++ x :: l2).dropWhile p = x :: l2
  | [], _, x, l2, hx => by
      simp [List.takeWhile_cons, List.dropWhile_cons, hx]
  | c :: l1, h, x, l2, hx => by
      have hc : p c = true := h c (List.mem_cons_self _ _)
      have ih := takeWhile_all_append l1
        (fun a ha => h a (List.mem_cons_of_mem _ ha)) x l2 hx
      simp [List.takeWhile_cons, List.dropWhile_cons, hc, ih.1, ih.2]

theorem parseNat1_enc (n : Nat) (cs : List Char) :
    parseNat1 (encNat n ++ sepChar :: cs) = some (n, cs) := by
  obtain ⟨d, ds, hd⟩ := List.exists_cons_of_ne_nil (encNat_ne_nil n)
  have htw := takeWhile_all_append (encNat n)
    (fun c hc => isDigitC_of_mem_encNat hc) sepChar cs rfl
  rw [parseNat1, htw.1, htw.2, hd]
  show (if sepChar = sepChar then some (decodeTok (d :: ds), cs) else none) = _
  rw [if_pos rfl, ← hd, decodeTok_encNat]

theorem parseSeq_encSeq : ∀ (ns : List Nat) (cs : List Char),
    parseSeq ns.length (encSeq ns ++ cs) = some (ns, cs)
  | [], cs => rfl
  | n :: rest, cs => by
      have h1 : encSeq (n :: rest) ++ cs =
          encNat n ++ sepChar :: (encSeq rest ++ cs) := by
        simp [encSeq]
      rw [List.length_cons, h1]
      simp only [parseSeq]
      rw [parseNat1_enc]
      show (match parseSeq rest.length (encSeq rest ++ cs) with
        | some (ns, r) => some (n :: ns, r)
        | none => none) = some (n :: rest, cs)
      rw [parseSeq_encSeq rest cs]

theorem encSeq_append (a b : List Nat) :
    encSeq (a ++ b) = encSeq a ++ encSeq b := by
  induction a with
  | nil => rfl
  | cons n rest ih => simp [encSeq, ih]

/-- Encode a full-tree record as text. -/
def encodeSF (d : SerializedFull) : List Char :=
  encSeq ([d.levels, d.root, d.zeroElement, d.leaves.length] ++ d.leaves)

/-- Decode a full-tree record from text (the stand-in for `JSON.parse` on a
`toString()` output). -/
def parseSF (cs : List Char) : Option SerializedFull :=
  match parseSeq 4 cs with
  | some ([lv, rt, z, len], rest) =>
      match parseSeq len rest with
      | some (ls, []) => some ⟨lv, rt, z, ls⟩
      | _ => none
  | _ => none

/-- Encode a partial-tree record as text. -/
def encodeSP (d : SerializedPartial) : List Char :=
  encSeq ([d.levels, d.root, d.zeroElement, d.edgeIndex, d.edgePath.length] ++
    d.edgePath ++ [d.leaves.length] ++ d.leaves)

/-- Decode a partial-tree record from text. -/
def parseSP (cs : List Char) : Option SerializedPartial :=
  match parseSeq 5 cs with
  | some ([lv, rt, z, e, plen], rest) =>
      match parseSeq plen rest with
      | some (ep, rest2) =>
          match parseSeq 1 rest2 with
          | some ([llen], rest3) =>
              match parseSeq llen rest3 with
              | some (ls, []) => some ⟨lv, rt, z, e, ep, ls⟩
              | _ => none
          | _ => none
      | _ => none
  | _ => none

/-- Modelled from the spec: `toString()` on a full tree is the textual
encoding of its serialized record. -/
def MerkleTree.toText (t : MerkleTree) : List Char := encodeSF t.serialize

/-- Modelled from the spec: `toString()` on a partial tree is the textual
encoding of its serialized record. -/
def PartialMerkleTree.toText (t : PartialMerkleTree) : List Char :=
  encodeSP t.serialize

theorem parseSF_encodeSF (d : SerializedFull) :
    parseSF (encodeSF d) = some d := by
  have h4 := parseSeq_encSeq [d.levels, d.root, d.zeroElement, d.leaves.length]
    (encSeq d.leaves)
  have h5 := parseSeq_encSeq d.leaves []
  rw [List.append_nil] at h5
  norm_num at h4
  rw [parseSF, encodeSF, encSeq_append, h4]
  show (match parseSeq d.leaves.length (encSeq d.leaves) with
    | some (ls, []) => some ⟨d.levels, d.root, d.zeroElement, ls⟩
    | _ => none) = some d
  rw [h5]

theorem parseSP_encodeSP (d : SerializedPartial) :
    parseSP (encodeSP d) = some d := by
  have h5 := parseSeq_encSeq
    [d.levels, d.root, d.zeroElement, d.edgeIndex, d.edgePath.length]
    (encSeq d.edgePath ++ (encSeq [d.leaves.length] ++ encSeq d.leaves))
  have hep := parseSeq_encSeq d.edgePath (encSeq [d.leaves.length] ++ encSeq d.leaves)
  have h1 := parseSeq_encSeq [d.leaves.length] (encSeq d.leaves)
  have hls := parseSeq_encSeq d.leaves []
  rw [List.append_nil] at hls
  norm_num at h5 h1
  rw [parseSP, encodeSP, encSeq_append, encSeq_append, encSeq_append,
    List.append_assoc, List.append_assoc, h5]
  show (match parseSeq d.edgePath.length
      (encSeq d.edgePath ++ (encSeq [d.leaves.length] ++ encSeq d.leaves)) with
    | some (ep, rest2) =>
        match parseSeq 1 rest2 with
        | some ([llen], rest3) =>
            match parseSeq llen rest3 with
            | some (ls, []) =>
                some ⟨d.levels, d.root, d.zeroElement, d.edgeIndex, ep, ls⟩
            | _ => none
        | _ => none
    | _ => none) = some d
  rw [hep]
  show (match parseSeq 1 (encSeq [d.leaves.length] ++ encSeq d.leaves) with
    | some ([llen], rest3) =>
        match parseSeq llen rest3 with
        | some (ls, []) =>
            some ⟨d.levels, d.root, d.zeroElement, d.edgeIndex, d.edgePath, ls⟩
        | _ => none
    | _ => none) = some d
  rw [h1]
  show (match parseSeq d.leaves.length (encSeq d.leaves) with
    | some (ls, []) =>
        some ⟨d.levels, d.root, d.zeroElement, d.edgeIndex, d.edgePath, ls⟩
    | _ => none) = some d
  rw [hls]

/-- Claim C9: for every tree, full or partial, deserializing the serialized
record (with the same injected hash function) reproduces the tree exactly --
hence the same root, and the same result for every subsequent operation
sequence; moreover `toString()` is the textual encoding of the serialized
record, and the decoder applied to that text yields a record that
deserializes to the same tree again. -/
theorem c9_roundtrip :
    (∀ t : MerkleTree,
        MerkleTree.deserialize t.hashFn t.serialize = t ∧
        (MerkleTree.deserialize t.hashFn t.serialize).root = t.root ∧
        (∀ ops, applySeqF ops (MerkleTree.deserialize t.hashFn t.serialize) =
          applySeqF ops t) ∧
        t.toText = encodeSF t.serialize ∧
        (∃ d, parseSF t.toText = some d ∧
          MerkleTree.deserialize t.hashFn d = t)) ∧
    (∀ t : PartialMerkleTree,
        PartialMerkleTree.deserialize t.hashFn t.serialize = t ∧
        (PartialMerkleTree.deserialize t.hashFn t.serialize).root = t.root ∧
        (∀ ops, applySeqP ops (PartialMerkleTree.deserialize t.hashFn t.serialize) =
          applySeqP ops t) ∧
        t.toText = encodeSP t.serialize ∧
        (∃ d, parseSP t.toText = some d ∧
          PartialMerkleTree.deserialize t.hashFn d = t)) := by
  constructor
  · intro t
    exact ⟨rfl, rfl, fun ops => rfl, rfl,
      ⟨t.serialize, parseSF_encodeSF t.serialize, rfl⟩⟩
  · intro t
    exact ⟨rfl, rfl, fun ops => rfl, rfl,
      ⟨t.serialize, parseSP_encodeSP t.serialize, rfl⟩⟩

end FixedMerkleTree
